import Mathlib

/-!
# Verification of the Whispering TTS streaming pipeline

Shallow embedding of the text-to-speech controller and providers of the
Whispering repository (`src/tts_controller.py`, `src/tts_provider.py`),
together with theorems settling the specification claims about them.

Python strings are modelled as `List Char`.  Python whitespace (both the
`\s` class of the `re` module and the default set used by `str.split` /
`str.strip`, which coincide on the characters relevant here) is modelled
by the single predicate `isSpc`.
-/

namespace Whispering

/-- Whitespace characters: space, tab, newline, carriage return, vertical
tab, form feed.  Models both Python's `str` whitespace and the regex
class `\s` (they agree on these characters). -/
def isSpc (c : Char) : Bool :=
  c = ' ' || c = '\t' || c = '\n' || c = '\r' || c = '\x0b' || c = '\x0c'

/-- The sentence-terminating punctuation class `[.!?]` used by
`TTSController.chunk_text` (tts_controller.py line 146). -/
def isPunct (c : Char) : Bool :=
  c = '.' || c = '!' || c = '?'

/-- Python `str.lstrip()` (no argument): drop leading whitespace. -/
def pyLstrip (l : List Char) : List Char :=
  l.dropWhile isSpc

/-- Python `str.rstrip()` (no argument): drop trailing whitespace. -/
def pyRstrip : List Char → List Char
  | [] => []
  | c :: cs =>
    match pyRstrip cs with
    | [] => if isSpc c then [] else [c]
    | d :: ds => c :: d :: ds

/-- Python `str.strip()` (no argument): drop whitespace on both sides. -/
def pyStrip (l : List Char) : List Char :=
  pyLstrip (pyRstrip l)

/-- Python `str.split()` (no argument): the maximal runs of
non-whitespace characters, in order; leading/trailing/repeated
whitespace yields no empty entries. -/
def pyWords : List Char → List (List Char)
  | [] => []
  | [c] => if isSpc c then [] else [[c]]
  | c :: d :: cs =>
    if isSpc c then pyWords (d :: cs)
    else if isSpc d then [c] :: pyWords (d :: cs)
    else
      match pyWords (d :: cs) with
      | [] => [[c]]
      | w :: ws => (c :: w) :: ws

/-! ## `TTSController.chunk_text` (tts_controller.py lines 137-194) -/

/-- `TTSController.MAX_CHUNK_SIZE` (tts_controller.py line 40). -/
def MAX_CHUNK_SIZE : Nat := 300

/-- Does the regex `([.!?]+[\s]+|[.!?]+$)` match at the start of `s`?
Used for `re.match(sentence_pattern, sentences[i + 1])` on line 152.
The first alternative matches iff a (maximal) nonempty punctuation run
is followed by a whitespace character; the second iff the punctuation
run extends to the end of the string.  (The `$`-before-final-newline
case of Python's `$` is subsumed by the first alternative because
`\n` is whitespace and the first alternative is tried first.) -/
def reMatchSent (s : List Char) : Bool :=
  !(s.takeWhile isPunct).isEmpty &&
    (match s.dropWhile isPunct with
     | [] => true
     | d :: _ => isSpc d)

/-- The scan performed by `re.split(r'([.!?]+[\s]+|[.!?]+$)', text)`
(line 147).  Returns the interleaved list
`[piece₀, sep₀, piece₁, sep₁, …, pieceₙ]` with the captured separators
between the pieces, exactly as `re.split` with one capturing group does.

The scanner looks for the leftmost match: a match can only start at a
punctuation character; at a maximal punctuation run it matches iff the
run is followed by whitespace (the separator is then the run plus the
maximal whitespace run after it — the regex is greedy) or the run ends
the string (the separator is then the run, followed by an empty final
piece).  If the run is followed by a non-whitespace character no match
can start anywhere inside the run, so the scan resumes after it.
`acc` holds the characters of the current piece in reverse. -/
def scanSent (acc : List Char) : List Char → List (List Char)
  | [] => [acc.reverse]
  | c :: cs =>
    if isPunct c then
      let run := c :: List.takeWhile isPunct cs
      let rest := List.dropWhile isPunct cs
      if rest.isEmpty then [acc.reverse, run, []]
      else if isSpc (rest.headD ' ') then
        acc.reverse :: (run ++ List.takeWhile isSpc rest) ::
          scanSent [] (List.dropWhile isSpc rest)
      else
        scanSent (run.reverse ++ acc) rest
    else
      scanSent (c :: acc) cs
termination_by l => l.length
decreasing_by
  · exact Nat.lt_of_le_of_lt (List.dropWhile_sublist _).length_le
      (Nat.lt_of_le_of_lt (List.dropWhile_sublist _).length_le (by simp))
  · exact Nat.lt_of_le_of_lt (List.dropWhile_sublist _).length_le (by simp)
  · simp

/-- The `cleaned_sentences` loop of `chunk_text` (lines 149-159): walk
the interleaved piece/separator list; a piece followed by a separator
(which matches the sentence pattern) is re-joined with it; a lone piece
is kept iff its strip is non-empty. -/
def cleanSentences : List (List Char) → List (List Char)
  | [] => []
  | [x] => if (pyStrip x).isEmpty then [] else [x]
  | x :: y :: rest =>
    if reMatchSent y then (x ++ y) :: cleanSentences rest
    else if (pyStrip x).isEmpty then cleanSentences (y :: rest)
    else x :: cleanSentences (y :: rest)
termination_by l => l.length

/-- `word_chunk += (" " if word_chunk else "") + word` (line 176) and
`current_chunk += (" " if current_chunk else "") + sentence` (line 185). -/
def joinSp (a w : List Char) : List Char :=
  a ++ (if a.isEmpty then [] else [' ']) ++ w

/-- The word-level greedy packing of a too-long sentence
(lines 172-182): `words = sentence.split()`, then pack words into
`word_chunk` while `len(word_chunk) + len(word) + 1 <= MAX_CHUNK_SIZE`,
flushing (stripped) whenever the next word does not fit. -/
def packWords : List Char → List (List Char) → List (List Char)
  | wchunk, [] => if wchunk.isEmpty then [] else [pyStrip wchunk]
  | wchunk, w :: ws =>
    if wchunk.length + w.length + 1 ≤ MAX_CHUNK_SIZE then
      packWords (joinSp wchunk w) ws
    else
      (if wchunk.isEmpty then [] else [pyStrip wchunk]) ++ packWords w ws

/-- The sentence-level greedy packing of `chunk_text` (lines 161-192):
strip each sentence, skip empty ones, send over-long sentences through
`packWords`, otherwise pack sentences into `current_chunk` while
`len(current_chunk) + len(sentence) + 1 <= MAX_CHUNK_SIZE`, flushing
(stripped) when the next sentence does not fit, and finally flushing
the remaining `current_chunk` if non-empty. -/
def packSentences : List Char → List (List Char) → List (List Char)
  | current, [] => if current.isEmpty then [] else [pyStrip current]
  | current, sent :: rest =>
    let s := pyStrip sent
    if s.isEmpty then packSentences current rest
    else if MAX_CHUNK_SIZE < s.length then
      (if current.isEmpty then [] else [pyStrip current]) ++
        packWords [] (pyWords s) ++ packSentences [] rest
    else if current.length + s.length + 1 ≤ MAX_CHUNK_SIZE then
      packSentences (joinSp current s) rest
    else
      (if current.isEmpty then [] else [pyStrip current]) ++ packSentences s rest

/-- `TTSController.chunk_text` (lines 137-194): texts of at most
`MAX_CHUNK_SIZE` characters are returned as the single unit `[text]`;
longer texts are split at sentence boundaries and greedily packed. -/
def chunk_text (text : List Char) : List (List Char) :=
  if text.length ≤ MAX_CHUNK_SIZE then [text]
  else packSentences [] (cleanSentences (scanSent [] text))

/-! ## Accumulation of text fragments (`_playback_loop`, lines 379-427)

A queue item produced by `synthesize_and_play` is the triple
`(text, also_save, file_format)` (line 326); `flush_playback` enqueues
the `_FLUSH` sentinel (line 342).  The pending utterance being
accumulated is the worker's local `(text, also_save, file_format)`
state. -/

/-- One `(text, also_save, file_format)` triple enqueued by
`synthesize_and_play` (tts_controller.py line 326). -/
structure Fragment where
  text : List Char
  also_save : Bool
  file_format : List Char
deriving DecidableEq, Repr

/-- The worker's accumulated `(text, also_save, file_format)` state
during one pass of `_playback_loop`. -/
structure PendingUtterance where
  text : List Char
  also_save : Bool
  file_format : List Char
deriving DecidableEq, Repr

/-- The merge step of the accumulation loop (lines 410-413, identically
lines 424-427):
`text = text.rstrip() + " " + extra_text.lstrip()`,
`also_save = also_save or extra_save`, `file_format = extra_fmt`. -/
def mergeFragment (p : PendingUtterance) (f : Fragment) : PendingUtterance :=
  { text := pyRstrip p.text ++ ' ' :: pyLstrip f.text
    also_save := p.also_save || f.also_save
    file_format := f.file_format }

/-- The pending utterance opened by the first fragment (line 389). -/
def startPending (f : Fragment) : PendingUtterance :=
  ⟨f.text, f.also_save, f.file_format⟩

/-- Merging a sequence of further fragments, in arrival order, into the
utterance opened by `f0` — the net effect of the accumulation loop on
its `(text, also_save, file_format)` state. -/
def accumulate (f0 : Fragment) (fs : List Fragment) : PendingUtterance :=
  fs.foldl mergeFragment (startPending f0)

/-! ### Timed model of the accumulation deadline (lines 392-427)

Time is modelled by exact rationals (the code uses `time.monotonic()`
floats).  The consumer interacts with the FIFO `_playback_queue`
through `get(timeout=min(remaining, 0.5))`: a blocking `get` returns
the oldest not-yet-consumed item as soon as it is available — at time
`max(now, arrival)` — provided that happens within the timeout, and
raises `Empty` (advancing the clock by the timeout) otherwise.  Since
the loop re-issues `get` back-to-back in slices of at most `0.5` until
`deadline - now ≤ 0`, and the final slice's timeout is exactly the
remaining time, the loop consumes precisely the items arriving up to
`deadline`, each at time `max(now, arrival)`, and otherwise runs the
clock out to exactly `deadline`.  `accumWait` is that collapsed
semantics; the stop event (checked by the same loop) is not part of
the modelled scenario. -/

/-- `_ACCUMULATION_TIMEOUT` (tts_controller.py line 345), in seconds. -/
def ACCUMULATION_TIMEOUT : ℚ := 5

/-- An item of `_playback_queue` tagged with its arrival time:
either a text fragment or a flush signal (`None` and the `_FLUSH`
sentinel both end accumulation with `flushed = True`, lines 404-409). -/
inductive QItem where
  | frag (f : Fragment) (arrival : ℚ)
  | flush (arrival : ℚ)
deriving DecidableEq, Repr

/-- Arrival time of a queue item. -/
def QItem.arrival : QItem → ℚ
  | .frag _ a => a
  | .flush a => a

/-- Is the item a flush signal (`None` or `_FLUSH`)? -/
def QItem.isFlush : QItem → Bool
  | .frag _ _ => false
  | .flush _ => true

/-- The accumulate-until-flush-or-timeout loop (lines 396-413) in the
timed queue model.  Returns `(exit time, flushed, pending, unconsumed
items)`.  The `deadline` parameter is fixed once before the loop
(line 393: `deadline = time.monotonic() + ACCUMULATION_TIMEOUT`) and is
never modified by the loop body. -/
def accumWait (deadline : ℚ) :
    ℚ → PendingUtterance → List QItem → ℚ × Bool × PendingUtterance × List QItem
  | _, p, [] => (deadline, false, p, [])
  | now, p, it :: rest =>
    if deadline ≤ now then (now, false, p, it :: rest)
    else if it.arrival ≤ deadline then
      match it with
      | .flush a => (max now a, true, p, rest)
      | .frag f a => accumWait deadline (max now a) (mergeFragment p f) rest
    else (deadline, false, p, it :: rest)

/-- The non-blocking drain performed after a timeout without flush
(lines 415-427): `get_nowait` returns the next item iff it is already
enqueued (arrived by `now`); a flush sentinel or an empty queue stops
the drain. -/
def drainQueue (now : ℚ) : PendingUtterance → List QItem → PendingUtterance
  | p, [] => p
  | p, it :: rest =>
    if it.arrival ≤ now then
      match it with
      | .flush _ => p
      | .frag f _ => drainQueue now (mergeFragment p f) rest
    else p

/-- The whole accumulation phase for one utterance: the first fragment
`f0` arrives at `t0` (line 389), the deadline is `t0 +
ACCUMULATION_TIMEOUT`, the wait loop runs, and if no flush ended it the
already-enqueued stragglers are drained (lines 415-427).  Returns the
time synthesis starts and the accumulated utterance. -/
def accumulatePhase (f0 : Fragment) (t0 : ℚ) (items : List QItem) :
    ℚ × PendingUtterance :=
  let r := accumWait (t0 + ACCUMULATION_TIMEOUT) t0 (startPending f0) items
  (r.1, if r.2.1 then r.2.2.1 else drainQueue r.1 r.2.2.1 r.2.2.2)

/-- The fragments among `items` that arrived by time `d`, in order. -/
def fragsUpTo (d : ℚ) (items : List QItem) : List Fragment :=
  items.filterMap fun it =>
    match it with
    | .frag f a => if a ≤ d then some f else none
    | .flush _ => none

/-! ## The synthesis/streaming section of `_playback_loop`
(lines 429-497) and `stop_playback` (lines 499-517)

`_synthesize_chunks_iter` (lines 347-367) checks `_playback_stop`
before synthesizing each chunk and ends the generator if it is set
(line 354); the loop body checks it again right after receiving a
chunk and breaks (lines 436-437) — before the chunk is collected or
written.  The stop event is modelled as a monotone boolean signal
sampled at those checks: `stop n` is the value `_playback_stop.is_set()`
returns at the `n`-th check (even `n`: generator check for chunk
`n / 2`; odd `n`: loop-body check for the chunk just synthesized).

After the loop — by `break` or by generator exhaustion — the code
unconditionally runs the save block (lines 469-478): if `also_save`
was requested and at least one chunk was collected, the file is
written and `on_complete` fires.  There is no stop check guarding it. -/

/-- Outcome of one utterance's synthesis/streaming pass: the audio
chunks written to the output device in order, whether the file save
(lines 469-476) ran, and whether `on_complete` (lines 477-478) fired. -/
structure PlayResult (A : Type) where
  written : List A
  saved : Bool
  completed : Bool
deriving DecidableEq, Repr

/-- The code after the `for` loop: stream close, then the save block.
`saved`/`completed` are true iff `also_save` was set and `all_segments`
is non-empty (line 469) — regardless of why the loop ended. -/
def playFinish (alsoSave : Bool) (written segs : List A) : PlayResult A :=
  ⟨written, alsoSave && !segs.isEmpty, alsoSave && !segs.isEmpty⟩

/-- The `for audio_chunk, sample_rate in self._synthesize_chunks_iter`
loop (lines 435-461), with the stop signal sampled at check number `n`:
the generator check (line 354) ends iteration before synthesizing the
next chunk; the body check (line 436) breaks before collecting or
writing the chunk just synthesized; otherwise the chunk is collected
into `all_segments` (iff `also_save`, lines 444-445) and written to
the device stream (line 461). -/
def playLoop (alsoSave : Bool) (stop : Nat → Bool) :
    Nat → List A → List A → List A → PlayResult A
  | _, written, segs, [] => playFinish alsoSave written segs
  | n, written, segs, c :: rest =>
    if stop n then playFinish alsoSave written segs
    else if stop (n + 1) then playFinish alsoSave written segs
    else playLoop alsoSave stop (n + 2) (written ++ [c])
      (if alsoSave then segs ++ [c] else segs) rest

/-- One utterance's synthesis/streaming pass over its chunk sequence. -/
def playbackRun (alsoSave : Bool) (stop : Nat → Bool) (chunks : List A) :
    PlayResult A :=
  playLoop alsoSave stop 0 [] [] chunks

/-! ## `TTSController.set_reference_voice` (lines 95-99) -/

/-- Python truthiness of the optional `audio_path` argument: `None` and
the empty string are falsy. -/
def pyTruthyOpt : Option (List Char) → Bool
  | none => false
  | some s => !s.isEmpty

/-- Outcome of `set_reference_voice`: whether `FileNotFoundError` was
raised, and the resulting `self.reference_voice_path`. -/
structure SetVoiceOutcome where
  raised : Bool
  reference_voice_path : Option (List Char)
deriving DecidableEq, Repr

/-- `TTSController.set_reference_voice` (lines 95-99).  `pathExists`
is the `os.path.exists` oracle; `st` is the current
`self.reference_voice_path`.  The guard is
`if audio_path and not os.path.exists(audio_path): raise`, so the
assignment on line 99 runs only when no error is raised. -/
def set_reference_voice (pathExists : List Char → Bool)
    (st : Option (List Char)) (audio_path : Option (List Char)) : SetVoiceOutcome :=
  if pyTruthyOpt audio_path && !pathExists (audio_path.getD []) then
    ⟨true, st⟩
  else
    ⟨false, audio_path⟩

/-! ## `KokoroTTSProvider.synthesize` (tts_provider.py lines 776-851)

The grapheme-to-phoneme pipeline `self._pipeline(sentence, voice=...,
split_pattern=None)` is a generator; it is modelled by an oracle
`pipe : List Char → List A × Bool` giving the audio segments the
generator yields before finishing (only those with
`audio is not None and len(audio) > 0`, line 820) and whether it ran
to completion (`true`) or raised one of the caught
`TypeError/ValueError/RuntimeError`s (`false`).  Segments yielded
before an exception have already been appended when the exception is
caught, both for whole sentences and for retry fragments. -/

/-- `re.split(r'(?<=[.!?])\s+', text)` (line 810): split at each
maximal whitespace run immediately preceded by `.`, `!` or `?`; the
lookbehind is zero-width, so the punctuation stays with the preceding
piece.  `acc` holds the current piece in reverse; its head is the
previously consumed character. -/
def splitAfterPunct (acc : List Char) : List Char → List (List Char)
  | [] => [acc.reverse]
  | c :: cs =>
    if (match acc with | p :: _ => isPunct p | [] => false) && isSpc c then
      acc.reverse :: splitAfterPunct [] (List.dropWhile isSpc cs)
    else
      splitAfterPunct (c :: acc) cs
termination_by l => l.length
decreasing_by
  · exact Nat.lt_of_le_of_lt (List.dropWhile_sublist _).length_le (by simp)
  · simp

/-- The sentence list of `KokoroTTSProvider.synthesize`
(lines 810-813): split after sentence punctuation, strip, drop empty
entries, and fall back to `[text]` when nothing remains. -/
def kokoroSentences (text : List Char) : List (List Char) :=
  let parts := ((splitAfterPunct [] text).map pyStrip).filter (fun s => !s.isEmpty)
  if parts.isEmpty then [text] else parts

/-- `re.split(r'[,;]\s*', sentence)` followed by strip and dropping
empty entries (lines 826-827): the clause fragments retried after a
conversion failure. -/
def splitClausesRaw (acc : List Char) : List Char → List (List Char)
  | [] => [acc.reverse]
  | c :: cs =>
    if c = ',' || c = ';' then
      acc.reverse :: splitClausesRaw [] (List.dropWhile isSpc cs)
    else
      splitClausesRaw (c :: acc) cs
termination_by l => l.length
decreasing_by
  · exact Nat.lt_of_le_of_lt (List.dropWhile_sublist _).length_le (by simp)
  · simp

/-- The stripped, non-empty clause fragments of a sentence. -/
def splitClauses (s : List Char) : List (List Char) :=
  ((splitClausesRaw [] s).map pyStrip).filter (fun f => !f.isEmpty)

/-- The per-sentence loop of `KokoroTTSProvider.synthesize`
(lines 815-837): feed each sentence to the pipeline; on a conversion
failure, retry the sentence once split into clause fragments, skipping
fragments that still fail; `segs` is `audio_segments`. -/
def kokoroCollect (pipe : List Char → List A × Bool) :
    List A → List (List Char) → List A
  | segs, [] => segs
  | segs, s :: rest =>
    match pipe s with
    | (a, true) => kokoroCollect pipe (segs ++ a) rest
    | (a, false) =>
      kokoroCollect pipe
        ((splitClauses s).foldl (fun acc f => acc ++ (pipe f).1) (segs ++ a)) rest

/-- `KokoroTTSProvider.synthesize` from the sentence split onward
(lines 810-851, for already-sanitised non-empty text): collect audio
segments per sentence with the one-retry-then-skip policy, and raise
`RuntimeError("Kokoro produced no audio output")` (line 840) iff no
segment at all was produced. -/
def kokoroSynthesize (pipe : List Char → List A × Bool) (text : List Char) :
    Except Unit (List A) :=
  let segs := kokoroCollect pipe [] (kokoroSentences text)
  if segs.isEmpty then .error () else .ok segs

/-- The audio a single sentence-level unit contributes: its pipeline
output if the pipeline completes, otherwise whatever it yielded before
failing followed by the output of each clause fragment (failed
fragments contribute only what they yielded before their exception).
This is the compositional per-unit reading of lines 815-837. -/
def unitAudio (pipe : List Char → List A × Bool) (s : List Char) : List A :=
  match pipe s with
  | (a, true) => a
  | (a, false) => a ++ ((splitClauses s).map (fun f => (pipe f).1)).flatten

/-! ## `ChatterboxProvider._ensure_initialized` (lines 239-294) -/

/-- A torch compute device. -/
inductive TorchDevice where
  | cpu
  | cuda
deriving DecidableEq, Repr

/-- The provider state relevant to the fallback ladder:
`self.device`, the global `torch.backends.cudnn.enabled` flag, and
`self._initialized`. -/
structure ChatterboxState where
  device : TorchDevice
  cudnnEnabled : Bool
  initialized : Bool
deriving DecidableEq, Repr

/-- `ChatterboxProvider._ensure_initialized` (lines 239-294).  `load
dev cudnn` is the oracle for whether `self._load_model(dev)` succeeds
with `torch.backends.cudnn.enabled = cudnn` (its failures are the
caught `RuntimeError/OSError`s).  On `self.device == "cuda"` the code
enables cuDNN (line 259) and tries: CUDA, then CUDA with cuDNN
disabled (lines 270-273), then CPU with cuDNN re-enabled (lines
278-280, also setting `self.device = "cpu"`).  `none` means the
exception escaped (re-raised on line 294). -/
def ensure_initialized (load : TorchDevice → Bool → Bool)
    (st : ChatterboxState) : Option ChatterboxState :=
  if st.initialized then some st
  else if st.device = .cuda then
    if load .cuda true then some ⟨.cuda, true, true⟩
    else if load .cuda false then some ⟨.cuda, false, true⟩
    else if load .cpu true then some ⟨.cpu, true, true⟩
    else none
  else
    if load st.device st.cudnnEnabled then
      some { st with initialized := true }
    else none

/-! ## `create_provider` (tts_provider.py lines 864-898) -/

/-- The provider variants, each with the constructor arguments
`create_provider` passes it. -/
inductive TTSProvider where
  | chatterbox (device : List Char) (model_type : List Char)
  | qwen3 (device : List Char) (model_size : List Char) (default_speaker : List Char)
  | kokoro (device : List Char) (default_voice : List Char)
deriving DecidableEq, Repr

/-- `create_provider` (lines 864-898): dispatch on the backend id
string; every id other than `"qwen3"` and `"kokoro"` — including
unknown ones — reaches the final `else` and yields a
`ChatterboxProvider`.  The function is total: no branch raises. -/
def create_provider (backend device model_type qwen3_model_size
    qwen3_speaker kokoro_voice : List Char) : TTSProvider :=
  if backend = "qwen3".toList then
    .qwen3 device qwen3_model_size qwen3_speaker
  else if backend = "kokoro".toList then
    .kokoro device kokoro_voice
  else
    .chatterbox device model_type

/-! ## Lemmas about `pyWords` -/

theorem pyWords_cons_space {c : Char} (h : isSpc c = true) (l : List Char) :
    pyWords (c :: l) = pyWords l := by
  cases l with
  | nil => simp [pyWords, h]
  | cons d ds => simp [pyWords, h]

theorem pyWords_cons₂_sp {x y : Char} (hx : isSpc x = false) (hy : isSpc y = true)
    (l : List Char) : pyWords (x :: y :: l) = [x] :: pyWords (y :: l) := by
  simp [pyWords, hx, hy]

theorem pyWords_cons₂_ns {x y : Char} (hx : isSpc x = false) (hy : isSpc y = false)
    (l : List Char) :
    pyWords (x :: y :: l) =
      match pyWords (y :: l) with
      | [] => [[x]]
      | w :: ws => (x :: w) :: ws := by
  simp [pyWords, hx, hy]

theorem pyWords_ne_nil {c : Char} (h : isSpc c = false) (l : List Char) :
    pyWords (c :: l) ≠ [] := by
  cases l with
  | nil => simp [pyWords, h]
  | cons d ds =>
    by_cases hd : isSpc d = true
    · rw [pyWords_cons₂_sp h hd]; simp
    · replace hd : isSpc d = false := by simpa using hd
      rw [pyWords_cons₂_ns h hd]
      cases pyWords (d :: ds) <;> simp

theorem pyWords_append_space {c : Char} (h : isSpc c = true) :
    ∀ (a b : List Char), pyWords (a ++ c :: b) = pyWords a ++ pyWords b := by
  intro a
  induction a with
  | nil => intro b; simp [pyWords_cons_space h, pyWords]
  | cons x a ih =>
    intro b
    by_cases hx : isSpc x = true
    · show pyWords (x :: (a ++ c :: b)) = pyWords (x :: a) ++ pyWords b
      rw [pyWords_cons_space hx, pyWords_cons_space hx, ih]
    · replace hx : isSpc x = false := by simpa using hx
      cases a with
      | nil =>
        show pyWords (x :: c :: b) = pyWords [x] ++ pyWords b
        rw [pyWords_cons₂_sp hx h, pyWords_cons_space h]
        simp [pyWords, hx]
      | cons y a' =>
        have h2 : pyWords (y :: (a' ++ c :: b)) = pyWords (y :: a') ++ pyWords b := ih b
        by_cases hy : isSpc y = true
        · show pyWords (x :: y :: (a' ++ c :: b)) = pyWords (x :: y :: a') ++ pyWords b
          rw [pyWords_cons₂_sp hx hy, pyWords_cons₂_sp hx hy, h2]
          rfl
        · replace hy : isSpc y = false := by simpa using hy
          obtain ⟨w, ws, hws⟩ : ∃ w ws, pyWords (y :: a') = w :: ws := by
            cases hpw : pyWords (y :: a') with
            | nil => exact absurd hpw (pyWords_ne_nil hy a')
            | cons w ws => exact ⟨w, ws, rfl⟩
          show pyWords (x :: y :: (a' ++ c :: b)) = pyWords (x :: y :: a') ++ pyWords b
          rw [pyWords_cons₂_ns hx hy, pyWords_cons₂_ns hx hy, h2, hws]
          rfl

theorem pyWords_allspace (w : List Char) (h : ∀ c ∈ w, isSpc c = true) :
    pyWords w = [] := by
  induction w with
  | nil => rfl
  | cons c cs ih =>
    rw [pyWords_cons_space (h c (by simp))]
    exact ih fun d hd => h d (by simp [hd])

theorem pyWords_append_allspace_right {w : List Char}
    (hw : ∀ c ∈ w, isSpc c = true) (a : List Char) :
    pyWords (a ++ w) = pyWords a := by
  cases w with
  | nil => simp
  | cons c cs =>
    rw [pyWords_append_space (hw c (by simp)) a cs,
        pyWords_allspace cs fun d hd => hw d (by simp [hd]), List.append_nil]

theorem pyWords_append_allspace_left {w : List Char}
    (hw : ∀ c ∈ w, isSpc c = true) (b : List Char) :
    pyWords (w ++ b) = pyWords b := by
  induction w with
  | nil => rfl
  | cons c cs ih =>
    show pyWords (c :: (cs ++ b)) = pyWords b
    rw [pyWords_cons_space (hw c (by simp))]
    exact ih fun d hd => hw d (by simp [hd])

theorem pyWords_append_mid_allspace {w : List Char}
    (hw : ∀ c ∈ w, isSpc c = true) (hne : w ≠ []) (a b : List Char) :
    pyWords (a ++ w ++ b) = pyWords a ++ pyWords b := by
  cases w with
  | nil => exact absurd rfl hne
  | cons c cs =>
    have h1 : a ++ (c :: cs) ++ b = a ++ c :: (cs ++ b) := by simp
    rw [h1, pyWords_append_space (hw c (by simp)) a (cs ++ b),
        pyWords_append_allspace_left (fun d hd => hw d (by simp [hd])) b]

theorem pyWords_single {w : List Char} (hne : w ≠ [])
    (h : ∀ c ∈ w, isSpc c = false) : pyWords w = [w] := by
  induction w with
  | nil => exact absurd rfl hne
  | cons x a ih =>
    cases a with
    | nil => simp [pyWords, h x (by simp)]
    | cons y a' =>
      have hx : isSpc x = false := h x (by simp)
      have hy : isSpc y = false := h y (by simp)
      rw [pyWords_cons₂_ns hx hy,
          ih (by simp) fun d hd => h d (by simp [hd])]

theorem mem_pyWords {l w : List Char} (hw : w ∈ pyWords l) :
    w ≠ [] ∧ ∀ c ∈ w, isSpc c = false := by
  induction l generalizing w with
  | nil => simp [pyWords] at hw
  | cons x a ih =>
    by_cases hx : isSpc x = true
    · rw [pyWords_cons_space hx] at hw
      exact ih hw
    · replace hx : isSpc x = false := by simpa using hx
      cases a with
      | nil =>
        simp [pyWords, hx] at hw
        subst hw
        exact ⟨by simp, by simp [hx]⟩
      | cons y a' =>
        by_cases hy : isSpc y = true
        · rw [pyWords_cons₂_sp hx hy] at hw
          rcases List.mem_cons.mp hw with h1 | h1
          · subst h1; exact ⟨by simp, by simp [hx]⟩
          · exact ih h1
        · replace hy : isSpc y = false := by simpa using hy
          rw [pyWords_cons₂_ns hx hy] at hw
          obtain ⟨v, vs, hvs⟩ : ∃ v vs, pyWords (y :: a') = v :: vs := by
            cases hpw : pyWords (y :: a') with
            | nil => exact absurd hpw (pyWords_ne_nil hy a')
            | cons v vs => exact ⟨v, vs, rfl⟩
          rw [hvs] at hw
          rcases List.mem_cons.mp hw with h1 | h1
          · subst h1
            have hv := ih (hvs ▸ List.mem_cons_self v vs)
            refine ⟨by simp, ?_⟩
            intro d hd
            rcases List.mem_cons.mp hd with h2 | h2
            · subst h2; exact hx
            · exact hv.2 d h2
          · exact ih (hvs ▸ List.mem_cons_of_mem v h1)

/-! ## Lemmas about `pyStrip` / `pyLstrip` / `pyRstrip` -/

theorem pyRstrip_decomp (l : List Char) :
    ∃ w, l = pyRstrip l ++ w ∧ ∀ c ∈ w, isSpc c = true := by
  induction l with
  | nil => exact ⟨[], rfl, by simp⟩
  | cons c cs ih =>
    obtain ⟨w, hw, hsp⟩ := ih
    cases hr : pyRstrip cs with
    | nil =>
      by_cases hc : isSpc c = true
      · refine ⟨c :: cs, by simp [pyRstrip, hr, hc], ?_⟩
        intro d hd
        rcases List.mem_cons.mp hd with h1 | h1
        · subst h1; exact hc
        · rw [hw, hr] at h1; exact hsp d (by simpa using h1)
      · replace hc : isSpc c = false := by simpa using hc
        refine ⟨w, ?_, hsp⟩
        have h1 : pyRstrip (c :: cs) = [c] := by simp [pyRstrip, hr, hc]
        rw [h1]
        have h2 : cs = w := by rw [hw, hr]; rfl
        rw [← h2]; rfl
    | cons d ds =>
      refine ⟨w, ?_, hsp⟩
      have h1 : pyRstrip (c :: cs) = c :: d :: ds := by simp [pyRstrip, hr]
      rw [h1]
      have h2 : cs = (d :: ds) ++ w := by rw [hw, hr]
      rw [show (c :: d :: ds) ++ w = c :: ((d :: ds) ++ w) from rfl, ← h2]

theorem pyLstrip_decomp (l : List Char) :
    ∃ w, l = w ++ pyLstrip l ∧ ∀ c ∈ w, isSpc c = true :=
  ⟨l.takeWhile isSpc, (List.takeWhile_append_dropWhile _ _).symm,
    fun _ hc => List.mem_takeWhile_imp hc⟩

theorem pyStrip_decomp (l : List Char) :
    ∃ u v, l = u ++ pyStrip l ++ v ∧
      (∀ c ∈ u, isSpc c = true) ∧ ∀ c ∈ v, isSpc c = true := by
  obtain ⟨v, hv, hv2⟩ := pyRstrip_decomp l
  obtain ⟨u, hu, hu2⟩ := pyLstrip_decomp (pyRstrip l)
  refine ⟨u, v, ?_, hu2, hv2⟩
  conv_lhs => rw [hv, hu]
  rfl

theorem pyWords_pyStrip (l : List Char) : pyWords (pyStrip l) = pyWords l := by
  obtain ⟨u, v, hl, hu, hv⟩ := pyStrip_decomp l
  conv_rhs => rw [hl]
  rw [pyWords_append_allspace_right hv (u ++ pyStrip l),
      pyWords_append_allspace_left hu (pyStrip l)]

theorem length_pyStrip_le (l : List Char) : (pyStrip l).length ≤ l.length := by
  obtain ⟨u, v, hl, _, _⟩ := pyStrip_decomp l
  conv_rhs => rw [hl]
  simp only [List.length_append]
  omega

theorem mem_of_mem_pyStrip {c : Char} {l : List Char} (h : c ∈ pyStrip l) :
    c ∈ l := by
  obtain ⟨u, v, hl, _, _⟩ := pyStrip_decomp l
  rw [hl]
  simp [h]

theorem allspace_of_pyStrip_eq_nil {l : List Char} (h : pyStrip l = []) :
    ∀ c ∈ l, isSpc c = true := by
  obtain ⟨u, v, hl, hu, hv⟩ := pyStrip_decomp l
  rw [h] at hl
  intro c hc
  rw [hl] at hc
  simp only [List.append_nil, List.mem_append] at hc
  rcases hc with h1 | h1
  · exact hu c h1
  · exact hv c h1

theorem pyWords_eq_nil_of_pyStrip_eq_nil {l : List Char} (h : pyStrip l = []) :
    pyWords l = [] :=
  pyWords_allspace l (allspace_of_pyStrip_eq_nil h)

theorem pyStrip_ne_nil {c : Char} {l : List Char} (hc : c ∈ l)
    (h : isSpc c = false) : pyStrip l ≠ [] := by
  intro hs
  rw [allspace_of_pyStrip_eq_nil hs c hc] at h
  exact absurd h (by simp)

theorem dropWhile_head_false {p : Char → Bool} :
    ∀ {x : List Char} {c : Char} {r : List Char},
      List.dropWhile p x = c :: r → p c = false := by
  intro x
  induction x with
  | nil => intro c r h; simp at h
  | cons a as ih =>
    intro c r h
    by_cases hp : p a = true
    · rw [List.dropWhile_cons_of_pos hp] at h
      exact ih h
    · replace hp : p a = false := by simpa using hp
      rw [List.dropWhile_cons_of_neg (by simp [hp])] at h
      cases h
      exact hp

theorem pyStrip_head_nonspace {l : List Char} {c : Char} {r : List Char}
    (h : pyStrip l = c :: r) : isSpc c = false :=
  dropWhile_head_false h

/-! ## Lemmas about the sentence scan and the cleaning loop -/

theorem isPunct_eq_false_of_isSpc {c : Char} (h : isSpc c = true) :
    isPunct c = false := by
  simp only [isSpc, Bool.or_eq_true, decide_eq_true_eq] at h
  rcases h with ((((h | h) | h) | h) | h) | h <;> subst h <;> decide

theorem takeWhile_append_all {p : Char → Bool} :
    ∀ {a : List Char}, (∀ c ∈ a, p c = true) →
      ∀ b, List.takeWhile p (a ++ b) = a ++ List.takeWhile p b := by
  intro a
  induction a with
  | nil => intro _ b; rfl
  | cons x a ih =>
    intro h b
    rw [List.cons_append, List.takeWhile_cons_of_pos (h x (by simp)),
        ih (fun c hc => h c (by simp [hc])) b]
    rfl

theorem dropWhile_append_all {p : Char → Bool} :
    ∀ {a : List Char}, (∀ c ∈ a, p c = true) →
      ∀ b, List.dropWhile p (a ++ b) = List.dropWhile p b := by
  intro a
  induction a with
  | nil => intro _ b; rfl
  | cons x a ih =>
    intro h b
    rw [List.cons_append, List.dropWhile_cons_of_pos (h x (by simp)),
        ih (fun c hc => h c (by simp [hc])) b]

theorem scanSent_nil (acc : List Char) : scanSent acc [] = [acc.reverse] := by
  simp [scanSent]

theorem scanSent_nonpunct {c : Char} (h : isPunct c = false)
    (acc cs : List Char) : scanSent acc (c :: cs) = scanSent (c :: acc) cs := by
  rw [scanSent]
  simp [h]

theorem scanSent_punct_end {c : Char} {cs : List Char} (h : isPunct c = true)
    (hr : List.dropWhile isPunct cs = []) (acc : List Char) :
    scanSent acc (c :: cs) = [acc.reverse, c :: List.takeWhile isPunct cs, []] := by
  rw [scanSent]
  simp [h, hr]

theorem scanSent_punct_sp {c d : Char} {cs ds : List Char} (h : isPunct c = true)
    (hr : List.dropWhile isPunct cs = d :: ds) (hd : isSpc d = true)
    (acc : List Char) :
    scanSent acc (c :: cs) =
      acc.reverse ::
        ((c :: List.takeWhile isPunct cs) ++ List.takeWhile isSpc (d :: ds)) ::
        scanSent [] (List.dropWhile isSpc (d :: ds)) := by
  rw [scanSent]
  simp [h, hr, hd]

theorem scanSent_punct_ns {c d : Char} {cs ds : List Char} (h : isPunct c = true)
    (hr : List.dropWhile isPunct cs = d :: ds) (hd : isSpc d = false)
    (acc : List Char) :
    scanSent acc (c :: cs) =
      scanSent ((c :: List.takeWhile isPunct cs).reverse ++ acc) (d :: ds) := by
  rw [scanSent]
  simp [h, hr, hd]

theorem cleanSentences_pair {y : List Char} (h : reMatchSent y = true)
    (x : List Char) (rest : List (List Char)) :
    cleanSentences (x :: y :: rest) = (x ++ y) :: cleanSentences rest := by
  rw [cleanSentences]
  simp [h]

/-- A separator of the form punctuation-run ++ whitespace-run matches
the sentence pattern. -/
theorem reMatchSent_run_ws {run ws : List Char} (hrun : ∀ c ∈ run, isPunct c = true)
    (hne : run ≠ []) (hws : ∀ c ∈ ws, isSpc c = true) (hwne : ws ≠ []) :
    reMatchSent (run ++ ws) = true := by
  cases ws with
  | nil => exact absurd rfl hwne
  | cons d ds =>
    have hd : isSpc d = true := hws d (by simp)
    have h1 : List.takeWhile isPunct ((d :: ds)) = [] := by
      rw [List.takeWhile_cons_of_neg (by simp [isPunct_eq_false_of_isSpc hd])]
    have h2 : List.dropWhile isPunct ((d :: ds)) = d :: ds := by
      rw [List.dropWhile_cons_of_neg (by simp [isPunct_eq_false_of_isSpc hd])]
    rw [reMatchSent, takeWhile_append_all hrun, dropWhile_append_all hrun, h1, h2]
    simp [hd]
    cases run with
    | nil => exact absurd rfl hne
    | cons r rs => simp

/-- A pure punctuation-run separator (at end of text) matches the
sentence pattern. -/
theorem reMatchSent_run {run : List Char} (hrun : ∀ c ∈ run, isPunct c = true)
    (hne : run ≠ []) : reMatchSent run = true := by
  have h1 : List.takeWhile isPunct run = run := List.takeWhile_eq_self_iff.mpr hrun
  have h2 : List.dropWhile isPunct run = [] := List.dropWhile_eq_nil_iff.mpr hrun
  rw [reMatchSent, h1, h2]
  cases run with
  | nil => exact absurd rfl hne
  | cons r rs => simp

/-- Word preservation of the sentence scan combined with the cleaning
loop: the concatenated word lists of the cleaned sentences are exactly
the words of the scanned text (with `acc.reverse` the piece pending in
the scanner). -/
theorem cleanScan_words :
    ∀ (n : Nat) (l : List Char), l.length ≤ n → ∀ acc : List Char,
      ((cleanSentences (scanSent acc l)).map pyWords).flatten =
        pyWords (acc.reverse ++ l) := by
  intro n
  induction n with
  | zero =>
    intro l hl acc
    have hl0 : l = [] := List.length_eq_zero.mp (Nat.le_zero.mp hl)
    rw [hl0, scanSent_nil]
    rw [cleanSentences]
    by_cases hs : (pyStrip acc.reverse).isEmpty
    · rw [if_pos hs]
      have := pyWords_eq_nil_of_pyStrip_eq_nil (List.isEmpty_iff.mp hs)
      simp [this]
    · rw [if_neg hs]
      simp
  | succ n ih =>
    intro l hl acc
    cases l with
    | nil =>
      rw [scanSent_nil, cleanSentences]
      by_cases hs : (pyStrip acc.reverse).isEmpty
      · rw [if_pos hs]
        have := pyWords_eq_nil_of_pyStrip_eq_nil (List.isEmpty_iff.mp hs)
        simp [this]
      · rw [if_neg hs]
        simp
    | cons c cs =>
      have hcs : cs.length ≤ n := by
        have := hl
        simp only [List.length_cons] at this
        omega
      by_cases hc : isPunct c = true
      · -- punctuation run at the head of the remaining text
        have hrun : ∀ x ∈ c :: List.takeWhile isPunct cs, isPunct x = true := by
          intro x hx
          rcases List.mem_cons.mp hx with h1 | h1
          · subst h1; exact hc
          · exact List.mem_takeWhile_imp h1
        have hsplit : c :: cs =
            (c :: List.takeWhile isPunct cs) ++ List.dropWhile isPunct cs := by
          rw [List.cons_append, List.takeWhile_append_dropWhile]
        cases hr : List.dropWhile isPunct cs with
        | nil =>
          rw [scanSent_punct_end hc hr acc,
              cleanSentences_pair (reMatchSent_run hrun (by simp)) _ _]
          rw [cleanSentences]
          simp only [pyStrip, pyRstrip, pyLstrip, List.dropWhile_nil,
            List.isEmpty_nil, if_pos]
          rw [hsplit, hr, List.append_nil]
          simp
        | cons d ds =>
          by_cases hd : isSpc d = true
          · -- separator: run ++ whitespace-run
            have hws : ∀ x ∈ List.takeWhile isSpc (d :: ds), isSpc x = true :=
              fun _ hx => List.mem_takeWhile_imp hx
            have hwsne : List.takeWhile isSpc (d :: ds) ≠ [] := by
              rw [List.takeWhile_cons_of_pos hd]
              simp
            rw [scanSent_punct_sp hc hr hd acc,
                cleanSentences_pair (reMatchSent_run_ws hrun (by simp) hws hwsne) _ _]
            have hlen2 : (List.dropWhile isSpc (d :: ds)).length ≤ n := by
              have h1 : (List.dropWhile isSpc (d :: ds)).length ≤ (d :: ds).length :=
                (List.dropWhile_sublist _).length_le
            -- (d :: ds).length ≤ cs.length since d :: ds = dropWhile isPunct cs
              have h2 : (d :: ds).length ≤ cs.length := by
                rw [← hr]
                exact (List.dropWhile_sublist _).length_le
              omega
            have hIH := ih (List.dropWhile isSpc (d :: ds)) hlen2 []
            simp only [List.reverse_nil, List.nil_append] at hIH
            simp only [List.map_cons, List.flatten_cons, hIH]
            have hsplit2 : (d :: ds) =
                List.takeWhile isSpc (d :: ds) ++ List.dropWhile isSpc (d :: ds) :=
              (List.takeWhile_append_dropWhile _ _).symm
            conv_rhs => rw [hsplit, hr, hsplit2]
            rw [show acc.reverse ++
                  ((c :: List.takeWhile isPunct cs) ++
                    (List.takeWhile isSpc (d :: ds) ++ List.dropWhile isSpc (d :: ds)))
                = (acc.reverse ++ (c :: List.takeWhile isPunct cs)) ++
                    List.takeWhile isSpc (d :: ds) ++ List.dropWhile isSpc (d :: ds) by
              simp [List.append_assoc]]
            rw [pyWords_append_mid_allspace hws hwsne]
            rw [show acc.reverse ++
                  ((c :: List.takeWhile isPunct cs) ++ List.takeWhile isSpc (d :: ds))
                = (acc.reverse ++ (c :: List.takeWhile isPunct cs)) ++
                    List.takeWhile isSpc (d :: ds) by simp [List.append_assoc]]
            rw [pyWords_append_allspace_right hws]
          · -- no match at this run: skip it
            replace hd : isSpc d = false := by simpa using hd
            rw [scanSent_punct_ns hc hr hd acc]
            have hlen2 : (d :: ds).length ≤ n := by
              have h2 : (d :: ds).length ≤ cs.length := by
                rw [← hr]
                exact (List.dropWhile_sublist _).length_le
              omega
            have hIH := ih (d :: ds) hlen2 ((c :: List.takeWhile isPunct cs).reverse ++ acc)
            rw [hIH]
            rw [List.reverse_append, List.reverse_reverse]
            conv_rhs => rw [hsplit, hr]
            simp [List.append_assoc]
      · replace hc : isPunct c = false := by simpa using hc
        rw [scanSent_nonpunct hc acc cs]
        have hIH := ih cs hcs (c :: acc)
        rw [hIH]
        simp

/-! ## Lemmas about the greedy packing loops -/

theorem length_joinSp (a w : List Char) :
    (joinSp a w).length ≤ a.length + w.length + 1 := by
  by_cases h : a.isEmpty = true
  · simp [joinSp, h]
  · simp only [joinSp, h]
    simp
    omega

theorem pyWords_joinSp (a s : List Char) :
    pyWords (joinSp a s) = pyWords a ++ pyWords s := by
  by_cases h : a.isEmpty = true
  · rw [List.isEmpty_iff.mp h]
    simp [joinSp, pyWords]
  · simp only [joinSp, h, Bool.false_eq_true, if_false]
    rw [show a ++ [' '] ++ s = a ++ ' ' :: s by simp]
    exact pyWords_append_space (by decide) a s

theorem packWords_flatten {ws : List (List Char)}
    (hws : ∀ w ∈ ws, w ≠ [] ∧ ∀ c ∈ w, isSpc c = false) :
    ∀ wchunk, ((packWords wchunk ws).map pyWords).flatten = pyWords wchunk ++ ws := by
  induction ws with
  | nil =>
    intro wchunk
    by_cases h : wchunk.isEmpty = true
    · rw [List.isEmpty_iff.mp h]
      simp [packWords, pyWords]
    · simp [packWords, h, pyWords_pyStrip]
  | cons w ws ih =>
    intro wchunk
    have hw := hws w (by simp)
    have hws' : ∀ v ∈ ws, v ≠ [] ∧ ∀ c ∈ v, isSpc c = false :=
      fun v hv => hws v (by simp [hv])
    by_cases hfit : wchunk.length + w.length + 1 ≤ MAX_CHUNK_SIZE
    · rw [packWords, if_pos hfit, ih hws', pyWords_joinSp,
          pyWords_single hw.1 hw.2]
      simp
    · rw [packWords, if_neg hfit]
      by_cases h : wchunk.isEmpty = true
      · rw [if_pos h, List.isEmpty_iff.mp h]
        rw [List.nil_append, ih hws', pyWords_single hw.1 hw.2]
        simp [pyWords]
      · rw [if_neg h]
        rw [List.map_append, List.flatten_append, ih hws',
            pyWords_single hw.1 hw.2]
        simp [pyWords_pyStrip]

theorem packSentences_flatten :
    ∀ (sents : List (List Char)) (current : List Char),
      ((packSentences current sents).map pyWords).flatten =
        pyWords current ++ (sents.map pyWords).flatten := by
  intro sents
  induction sents with
  | nil =>
    intro current
    by_cases h : current.isEmpty = true
    · rw [List.isEmpty_iff.mp h]
      simp [packSentences, pyWords]
    · simp [packSentences, h, pyWords_pyStrip]
  | cons sent rest ih =>
    intro current
    by_cases hs : (pyStrip sent).isEmpty = true
    · rw [packSentences]
      simp only [hs, if_true, ih]
      have h1 : pyWords sent = [] := by
        rw [← pyWords_pyStrip sent, List.isEmpty_iff.mp hs]
        rfl
      simp [h1]
    · have hwords : pyWords (pyStrip sent) = pyWords sent := pyWords_pyStrip sent
      by_cases hlong : MAX_CHUNK_SIZE < (pyStrip sent).length
      · rw [packSentences]
        simp only [hs, Bool.false_eq_true, if_false, hlong, if_true]
        rw [List.map_append, List.map_append, List.flatten_append,
            List.flatten_append, ih,
            packWords_flatten (fun w hw => mem_pyWords hw) []]
        by_cases h : current.isEmpty = true
        · rw [List.isEmpty_iff.mp h]
          simp [pyWords, hwords]
        · simp [h, pyWords_pyStrip, hwords, pyWords]
      · by_cases hfit : current.length + (pyStrip sent).length + 1 ≤ MAX_CHUNK_SIZE
        · rw [packSentences]
          simp only [hs, Bool.false_eq_true, if_false, hlong, if_true, hfit]
          rw [ih, pyWords_joinSp]
          simp [hwords]
        · rw [packSentences]
          simp only [hs, Bool.false_eq_true, if_false, hlong, hfit, if_true]
          by_cases h : current.isEmpty = true
          · rw [List.isEmpty_iff.mp h]
            simp [ih, hwords, pyWords]
          · simp only [h, Bool.false_eq_true, if_false]
            rw [List.map_append, List.flatten_append, ih]
            simp [pyWords_pyStrip, hwords]

/-- Word coverage of `chunk_text`: shared helper for the claim
theorems. -/
theorem chunk_text_flatten_words (t : List Char) :
    ((chunk_text t).map pyWords).flatten = pyWords t := by
  rw [chunk_text]
  by_cases h : t.length ≤ MAX_CHUNK_SIZE
  · rw [if_pos h]
    simp
  · rw [if_neg h, packSentences_flatten]
    have := cleanScan_words t.length t le_rfl []
    simp only [List.reverse_nil, List.nil_append] at this
    rw [this]
    rfl

theorem packWords_bound {ws : List (List Char)}
    (hws : ∀ w ∈ ws, ∀ c ∈ w, isSpc c = false) :
    ∀ wchunk, (wchunk.length ≤ MAX_CHUNK_SIZE ∨ ∀ c ∈ wchunk, isSpc c = false) →
      ∀ x ∈ packWords wchunk ws,
        x.length ≤ MAX_CHUNK_SIZE ∨ ∀ c ∈ x, isSpc c = false := by
  induction ws with
  | nil =>
    intro wchunk hw x hx
    rw [packWords] at hx
    by_cases h : wchunk.isEmpty = true
    · rw [if_pos h] at hx
      simp at hx
    · rw [if_neg h] at hx
      rcases List.mem_singleton.mp hx with rfl
      rcases hw with hw | hw
      · exact Or.inl (le_trans (length_pyStrip_le wchunk) hw)
      · exact Or.inr fun c hc => hw c (mem_of_mem_pyStrip hc)
  | cons w ws ih =>
    intro wchunk hw x hx
    have hws' : ∀ v ∈ ws, ∀ c ∈ v, isSpc c = false :=
      fun v hv => hws v (by simp [hv])
    by_cases hfit : wchunk.length + w.length + 1 ≤ MAX_CHUNK_SIZE
    · rw [packWords, if_pos hfit] at hx
      refine ih hws' (joinSp wchunk w) (Or.inl ?_) x hx
      exact le_trans (length_joinSp wchunk w) hfit
    · rw [packWords, if_neg hfit] at hx
      rcases List.mem_append.mp hx with h1 | h1
      · by_cases h : wchunk.isEmpty = true
        · rw [if_pos h] at h1
          simp at h1
        · rw [if_neg h] at h1
          rcases List.mem_singleton.mp h1 with rfl
          rcases hw with hw | hw
          · exact Or.inl (le_trans (length_pyStrip_le wchunk) hw)
          · exact Or.inr fun c hc => hw c (mem_of_mem_pyStrip hc)
      · exact ih hws' w (Or.inr (hws w (by simp))) x h1

theorem packSentences_bound :
    ∀ (sents : List (List Char)) (current : List Char),
      current.length ≤ MAX_CHUNK_SIZE →
      ∀ x ∈ packSentences current sents,
        x.length ≤ MAX_CHUNK_SIZE ∨ ∀ c ∈ x, isSpc c = false := by
  intro sents
  induction sents with
  | nil =>
    intro current hcur x hx
    rw [packSentences] at hx
    by_cases h : current.isEmpty = true
    · rw [if_pos h] at hx
      simp at hx
    · rw [if_neg h] at hx
      rcases List.mem_singleton.mp hx with rfl
      exact Or.inl (le_trans (length_pyStrip_le current) hcur)
  | cons sent rest ih =>
    intro current hcur x hx
    by_cases hs : (pyStrip sent).isEmpty = true
    · rw [packSentences] at hx
      simp only [hs, if_true] at hx
      exact ih current hcur x hx
    · by_cases hlong : MAX_CHUNK_SIZE < (pyStrip sent).length
      · rw [packSentences] at hx
        simp only [hs, Bool.false_eq_true, if_false, hlong, if_true] at hx
        rcases List.mem_append.mp hx with h1 | h1
        · rcases List.mem_append.mp h1 with h2 | h2
          · by_cases h : current.isEmpty = true
            · rw [if_pos h] at h2
              simp at h2
            · rw [if_neg h] at h2
              rcases List.mem_singleton.mp h2 with rfl
              exact Or.inl (le_trans (length_pyStrip_le current) hcur)
          · exact packWords_bound (fun w hw => (mem_pyWords hw).2) []
              (Or.inl (by simp [MAX_CHUNK_SIZE])) x h2
        · exact ih [] (by simp [MAX_CHUNK_SIZE]) x h1
      · push_neg at hlong
        by_cases hfit : current.length + (pyStrip sent).length + 1 ≤ MAX_CHUNK_SIZE
        · rw [packSentences] at hx
          simp only [hs, Bool.false_eq_true, if_false,
            Nat.not_lt.mpr hlong, if_false, hfit, if_true] at hx
          exact ih (joinSp current (pyStrip sent))
            (le_trans (length_joinSp current (pyStrip sent)) hfit) x hx
        · rw [packSentences] at hx
          simp only [hs, Bool.false_eq_true, if_false,
            Nat.not_lt.mpr hlong, hfit, if_false] at hx
          rcases List.mem_append.mp hx with h1 | h1
          · by_cases h : current.isEmpty = true
            · rw [if_pos h] at h1
              simp at h1
            · rw [if_neg h] at h1
              rcases List.mem_singleton.mp h1 with rfl
              exact Or.inl (le_trans (length_pyStrip_le current) hcur)
          · exact ih (pyStrip sent) hlong x h1

theorem packWords_ne_nil {ws : List (List Char)}
    (hws : ∀ w ∈ ws, w ≠ [] ∧ ∀ c ∈ w, isSpc c = false) :
    ∀ wchunk, (∃ c ∈ wchunk, isSpc c = false) ∨ wchunk = [] →
      ∀ x ∈ packWords wchunk ws, x ≠ [] := by
  induction ws with
  | nil =>
    intro wchunk hw x hx
    rw [packWords] at hx
    by_cases h : wchunk.isEmpty = true
    · rw [if_pos h] at hx
      simp at hx
    · rw [if_neg h] at hx
      rcases List.mem_singleton.mp hx with rfl
      rcases hw with ⟨c, hc, hcs⟩ | hw
      · exact pyStrip_ne_nil hc hcs
      · rw [hw] at h
        simp at h
  | cons w ws ih =>
    intro wchunk hw x hx
    have hws' : ∀ v ∈ ws, v ≠ [] ∧ ∀ c ∈ v, isSpc c = false :=
      fun v hv => hws v (by simp [hv])
    have hwword := hws w (by simp)
    have hwex : ∃ c ∈ w, isSpc c = false := by
      cases w with
      | nil => exact absurd rfl hwword.1
      | cons a as => exact ⟨a, by simp, hwword.2 a (by simp)⟩
    by_cases hfit : wchunk.length + w.length + 1 ≤ MAX_CHUNK_SIZE
    · rw [packWords, if_pos hfit] at hx
      refine ih hws' (joinSp wchunk w) (Or.inl ?_) x hx
      obtain ⟨c, hc, hcs⟩ := hwex
      exact ⟨c, by simp [joinSp, hc], hcs⟩
    · rw [packWords, if_neg hfit] at hx
      rcases List.mem_append.mp hx with h1 | h1
      · by_cases h : wchunk.isEmpty = true
        · rw [if_pos h] at h1
          simp at h1
        · rw [if_neg h] at h1
          rcases List.mem_singleton.mp h1 with rfl
          rcases hw with ⟨c, hc, hcs⟩ | hw
          · exact pyStrip_ne_nil hc hcs
          · rw [hw] at h
            simp at h
      · exact ih hws' w (Or.inl hwex) x h1

theorem packSentences_ne_nil :
    ∀ (sents : List (List Char)) (current : List Char),
      (∃ c ∈ current, isSpc c = false) ∨ current = [] →
      ∀ x ∈ packSentences current sents, x ≠ [] := by
  intro sents
  induction sents with
  | nil =>
    intro current hcur x hx
    rw [packSentences] at hx
    by_cases h : current.isEmpty = true
    · rw [if_pos h] at hx
      simp at hx
    · rw [if_neg h] at hx
      rcases List.mem_singleton.mp hx with rfl
      rcases hcur with ⟨c, hc, hcs⟩ | hcur
      · exact pyStrip_ne_nil hc hcs
      · rw [hcur] at h
        simp at h
  | cons sent rest ih =>
    intro current hcur x hx
    by_cases hs : (pyStrip sent).isEmpty = true
    · rw [packSentences] at hx
      simp only [hs, if_true] at hx
      exact ih current hcur x hx
    · have hsex : ∃ c ∈ pyStrip sent, isSpc c = false := by
        cases hps : pyStrip sent with
        | nil => rw [hps] at hs; simp at hs
        | cons a as =>
          exact ⟨a, by simp, pyStrip_head_nonspace hps⟩
      by_cases hlong : MAX_CHUNK_SIZE < (pyStrip sent).length
      · rw [packSentences] at hx
        simp only [hs, Bool.false_eq_true, if_false, hlong, if_true] at hx
        rcases List.mem_append.mp hx with h1 | h1
        · rcases List.mem_append.mp h1 with h2 | h2
          · by_cases h : current.isEmpty = true
            · rw [if_pos h] at h2
              simp at h2
            · rw [if_neg h] at h2
              rcases List.mem_singleton.mp h2 with rfl
              rcases hcur with ⟨c, hc, hcs⟩ | hcur
              · exact pyStrip_ne_nil hc hcs
              · rw [hcur] at h
                simp at h
          · exact packWords_ne_nil (fun w hw => mem_pyWords hw) []
              (Or.inr rfl) x h2
        · exact ih [] (Or.inr rfl) x h1
      · by_cases hfit : current.length + (pyStrip sent).length + 1 ≤ MAX_CHUNK_SIZE
        · rw [packSentences] at hx
          simp only [hs, Bool.false_eq_true, if_false,
            hlong, if_false, hfit, if_true] at hx
          refine ih (joinSp current (pyStrip sent)) (Or.inl ?_) x hx
          obtain ⟨c, hc, hcs⟩ := hsex
          exact ⟨c, by simp [joinSp, hc], hcs⟩
        · rw [packSentences] at hx
          simp only [hs, Bool.false_eq_true, if_false,
            hlong, hfit, if_false] at hx
          rcases List.mem_append.mp hx with h1 | h1
          · by_cases h : current.isEmpty = true
            · rw [if_pos h] at h1
              simp at h1
            · rw [if_neg h] at h1
              rcases List.mem_singleton.mp h1 with rfl
              rcases hcur with ⟨c, hc, hcs⟩ | hcur
              · exact pyStrip_ne_nil hc hcs
              · rw [hcur] at h
                simp at h
          · exact ih (pyStrip sent) (Or.inl hsex) x h1

/-! ## Lemmas about fragment accumulation (C4, C5) -/

theorem foldl_merge_also_save :
    ∀ (fs : List Fragment) (p : PendingUtterance),
      (fs.foldl mergeFragment p).also_save =
        (p.also_save || fs.any Fragment.also_save) := by
  intro fs
  induction fs with
  | nil => intro p; simp
  | cons f fs ih =>
    intro p
    rw [List.foldl_cons, ih]
    simp [mergeFragment, Bool.or_assoc]

theorem foldl_merge_file_format :
    ∀ (fs : List Fragment) (p : PendingUtterance),
      (fs.foldl mergeFragment p).file_format =
        ((fs.getLast?).map Fragment.file_format).getD p.file_format := by
  intro fs
  induction fs with
  | nil => intro p; simp
  | cons f fs ih =>
    intro p
    rw [List.foldl_cons, ih]
    cases fs with
    | nil => simp [mergeFragment]
    | cons g gs =>
      rw [List.getLast?_cons_cons]
      have hsome : (g :: gs).getLast?.isSome := by
        rw [List.getLast?_isSome]
        simp
      obtain ⟨x, hx⟩ := Option.isSome_iff_exists.mp hsome
      rw [hx]
      simp

theorem accumWait_nil (deadline now : ℚ) (p : PendingUtterance) :
    accumWait deadline now p [] = (deadline, false, p, []) := by
  rw [accumWait]

theorem accumWait_cons_late {deadline now : ℚ} (h : deadline ≤ now)
    (p : PendingUtterance) (it : QItem) (rest : List QItem) :
    accumWait deadline now p (it :: rest) = (now, false, p, it :: rest) := by
  rw [accumWait.eq_def]
  simp [h]

theorem accumWait_cons_flush {deadline now a : ℚ} (h1 : ¬ deadline ≤ now)
    (h2 : a ≤ deadline) (p : PendingUtterance) (rest : List QItem) :
    accumWait deadline now p (.flush a :: rest) = (max now a, true, p, rest) := by
  rw [accumWait.eq_def]
  simp only [QItem.arrival, if_neg h1, if_pos h2]

theorem accumWait_cons_frag {deadline now a : ℚ} (h1 : ¬ deadline ≤ now)
    (h2 : a ≤ deadline) (p : PendingUtterance) (f : Fragment) (rest : List QItem) :
    accumWait deadline now p (.frag f a :: rest) =
      accumWait deadline (max now a) (mergeFragment p f) rest := by
  rw [accumWait.eq_def]
  simp only [QItem.arrival, if_neg h1, if_pos h2]

theorem accumWait_cons_future {deadline now : ℚ} {it : QItem}
    (h1 : ¬ deadline ≤ now) (h2 : ¬ it.arrival ≤ deadline)
    (p : PendingUtterance) (rest : List QItem) :
    accumWait deadline now p (it :: rest) = (deadline, false, p, it :: rest) := by
  rw [accumWait.eq_def]
  cases it with
  | flush a =>
    simp only [QItem.arrival] at h2
    simp [QItem.arrival, h1, h2]
  | frag f a =>
    simp only [QItem.arrival] at h2
    simp [QItem.arrival, h1, h2]

theorem accumWait_exit_le (deadline : ℚ) :
    ∀ (items : List QItem) (now : ℚ) (p : PendingUtterance),
      now ≤ deadline → (accumWait deadline now p items).1 ≤ deadline := by
  intro items
  induction items with
  | nil => intro now p _; rw [accumWait_nil]
  | cons it rest ih =>
    intro now p h
    by_cases h1 : deadline ≤ now
    · rw [accumWait_cons_late h1]
      exact h
    · by_cases h2 : it.arrival ≤ deadline
      · cases it with
        | flush a =>
          rw [accumWait_cons_flush h1 (by simpa [QItem.arrival] using h2)]
          exact max_le h (by simpa [QItem.arrival] using h2)
        | frag f a =>
          rw [accumWait_cons_frag h1 (by simpa [QItem.arrival] using h2)]
          exact ih _ _ (max_le h (by simpa [QItem.arrival] using h2))
      · rw [accumWait_cons_future h1 h2]

theorem fragsUpTo_nil (d : ℚ) : fragsUpTo d [] = [] := rfl

theorem fragsUpTo_cons_flush (d a : ℚ) (rest : List QItem) :
    fragsUpTo d (.flush a :: rest) = fragsUpTo d rest := by
  rw [fragsUpTo, List.filterMap_cons]
  rfl

theorem fragsUpTo_cons_frag (d a : ℚ) (f : Fragment) (rest : List QItem) :
    fragsUpTo d (.frag f a :: rest) =
      (if a ≤ d then [f] else []) ++ fragsUpTo d rest := by
  by_cases h : a ≤ d
  · rw [fragsUpTo, List.filterMap_cons]
    simp only [if_pos h]
    rfl
  · rw [fragsUpTo, List.filterMap_cons]
    simp only [if_neg h]
    rfl

theorem fragsUpTo_nil_of_gt {d : ℚ} :
    ∀ {items : List QItem}, (∀ it ∈ items, d < it.arrival) →
      fragsUpTo d items = [] := by
  intro items
  induction items with
  | nil => intro _; rfl
  | cons it rest ih =>
    intro h
    have hd : d < it.arrival := h it (by simp)
    cases it with
    | flush a =>
      rw [fragsUpTo_cons_flush]
      exact ih fun x hx => h x (by simp [hx])
    | frag f a =>
      simp only [QItem.arrival] at hd
      rw [fragsUpTo_cons_frag, if_neg (not_le.mpr hd), List.nil_append]
      exact ih fun x hx => h x (by simp [hx])

theorem drainQueue_sorted (now : ℚ) :
    ∀ (items : List QItem) (p : PendingUtterance),
      items.Pairwise (fun a b => a.arrival ≤ b.arrival) →
      (∀ it ∈ items, it.isFlush = false) →
      drainQueue now p items = (fragsUpTo now items).foldl mergeFragment p := by
  intro items
  induction items with
  | nil => intro p _ _; rfl
  | cons it rest ih =>
    intro p hp hf
    cases it with
    | flush a => simpa [QItem.isFlush] using hf _ (List.mem_cons_self _ _)
    | frag f a =>
      by_cases h1 : a ≤ now
      · rw [drainQueue]
        simp only [QItem.arrival, if_pos h1]
        rw [ih (mergeFragment p f) (List.Pairwise.of_cons hp)
            (fun x hx => hf x (by simp [hx])),
          fragsUpTo_cons_frag, if_pos h1]
        rfl
      · rw [drainQueue]
        simp only [QItem.arrival, if_neg h1]
        have hrest : fragsUpTo now rest = [] := by
          refine fragsUpTo_nil_of_gt fun x hx => ?_
          have hax : a ≤ x.arrival := (List.pairwise_cons.mp hp).1 x hx
          have hna : now < a := not_le.mp h1
          linarith
        rw [fragsUpTo_cons_frag, if_neg h1, hrest]
        rfl

/-- The accumulated utterance produced by the wait loop followed by the
non-blocking drain, as used by `accumulatePhase` when no flush ended
the wait. -/
def accumResult (deadline now : ℚ) (p : PendingUtterance)
    (items : List QItem) : PendingUtterance :=
  let r := accumWait deadline now p items
  if r.2.1 then r.2.2.1 else drainQueue r.1 r.2.2.1 r.2.2.2

theorem accumWait_drain (deadline : ℚ) :
    ∀ (items : List QItem) (now : ℚ) (p : PendingUtterance),
      items.Pairwise (fun a b => a.arrival ≤ b.arrival) →
      (∀ it ∈ items, now ≤ it.arrival) →
      now ≤ deadline →
      (∀ it ∈ items, it.isFlush = false) →
      accumResult deadline now p items =
        (fragsUpTo deadline items).foldl mergeFragment p := by
  intro items
  induction items with
  | nil =>
    intro now p _ _ _ _
    rw [accumResult, accumWait_nil]
    simp [drainQueue, fragsUpTo]
  | cons it rest ih =>
    intro now p hsort harr hnd hnf
    cases it with
    | flush a => simpa [QItem.isFlush] using hnf _ (List.mem_cons_self _ _)
    | frag f a =>
      by_cases h1 : deadline ≤ now
      · have hnow : now = deadline := le_antisymm hnd h1
        rw [accumResult, accumWait_cons_late h1]
        simp only [Bool.false_eq_true, if_false]
        rw [drainQueue_sorted now _ p hsort hnf, hnow]
      · by_cases h2 : a ≤ deadline
        · rw [accumResult, accumWait_cons_frag h1 h2]
          have hstep :=
            ih (max now a) (mergeFragment p f)
              (List.Pairwise.of_cons hsort)
              (fun x hx => max_le (harr x (by simp [hx]))
                ((List.pairwise_cons.mp hsort).1 x hx))
              (max_le (le_of_not_le h1) h2)
              (fun x hx => hnf x (by simp [hx]))
          rw [accumResult] at hstep
          rw [hstep, fragsUpTo_cons_frag, if_pos h2]
          rfl
        · rw [accumResult,
            accumWait_cons_future h1 (by simpa [QItem.arrival] using h2)]
          simp only [Bool.false_eq_true, if_false]
          rw [drainQueue]
          simp only [QItem.arrival,
            if_neg (fun hc => h2 (le_trans hc (le_refl deadline)))]
          have hrest : fragsUpTo deadline rest = [] := by
            refine fragsUpTo_nil_of_gt fun x hx => ?_
            have hax : a ≤ x.arrival := (List.pairwise_cons.mp hsort).1 x hx
            have hda : deadline < a := not_le.mp h2
            linarith
          rw [fragsUpTo_cons_frag, if_neg h2, hrest]
          rfl

/-! ## Lemmas about the playback loop (C6) -/

theorem playLoop_written_take {A : Type} (alsoSave : Bool) (stop : Nat → Bool) :
    ∀ (chunks : List A) (n : Nat) (written segs : List A),
      ∃ k, (playLoop alsoSave stop n written segs chunks).written =
        written ++ chunks.take k := by
  intro chunks
  induction chunks with
  | nil =>
    intro n w s
    exact ⟨0, by simp [playLoop, playFinish]⟩
  | cons c rest ih =>
    intro n w s
    by_cases h0 : stop n = true
    · exact ⟨0, by simp [playLoop, playFinish, h0]⟩
    · by_cases h1 : stop (n + 1) = true
      · exact ⟨0, by simp [playLoop, playFinish, h0, h1]⟩
      · obtain ⟨k, hk⟩ := ih (n + 2) (w ++ [c]) (if alsoSave then s ++ [c] else s)
        refine ⟨k + 1, ?_⟩
        rw [playLoop]
        simp only [h0, Bool.false_eq_true, if_false, h1]
        rw [hk, List.take_succ_cons]
        simp

theorem playLoop_save_fires {A : Type} (alsoSave : Bool) (stop : Nat → Bool) :
    ∀ (chunks : List A) (n : Nat) (written : List A),
      ((playLoop alsoSave stop n written
          (if alsoSave then written else []) chunks).saved =
        (alsoSave &&
          !(playLoop alsoSave stop n written
              (if alsoSave then written else []) chunks).written.isEmpty)) ∧
      (playLoop alsoSave stop n written
          (if alsoSave then written else []) chunks).completed =
        (playLoop alsoSave stop n written
          (if alsoSave then written else []) chunks).saved := by
  intro chunks
  induction chunks with
  | nil =>
    intro n w
    cases alsoSave <;> simp [playLoop, playFinish]
  | cons c rest ih =>
    intro n w
    by_cases h0 : stop n = true
    · rw [playLoop]
      simp only [h0, if_true]
      cases alsoSave <;> simp [playFinish]
    · by_cases h1 : stop (n + 1) = true
      · rw [playLoop]
        simp only [h0, Bool.false_eq_true, if_false, h1, if_true]
        cases alsoSave <;> simp [playFinish]
      · rw [playLoop]
        simp only [h0, Bool.false_eq_true, if_false, h1]
        have := ih (n + 2) (w ++ [c])
        cases alsoSave with
        | false => simpa using this
        | true => simpa using this

theorem playLoop_stop_not_written {A : Type} (alsoSave : Bool) (stop : Nat → Bool) :
    ∀ (chunks : List A) (k n : Nat) (written segs : List A),
      stop (n + 2 * k) = true →
      (playLoop alsoSave stop n written segs chunks).written.length ≤
        written.length + k := by
  intro chunks
  induction chunks with
  | nil =>
    intro k n w s _
    simp [playLoop, playFinish]
  | cons c rest ih =>
    intro k n w s hstop
    by_cases h0 : stop n = true
    · rw [playLoop]
      simp only [h0, if_true]
      simp [playFinish]
    · by_cases h1 : stop (n + 1) = true
      · rw [playLoop]
        simp only [h0, Bool.false_eq_true, if_false, h1, if_true]
        simp [playFinish]
      · cases k with
        | zero =>
          rw [Nat.mul_zero, Nat.add_zero] at hstop
          exact absurd hstop h0
        | succ k' =>
          rw [playLoop]
          simp only [h0, Bool.false_eq_true, if_false, h1]
          have harg : n + 2 * (k' + 1) = (n + 2) + 2 * k' := by omega
          rw [harg] at hstop
          have := ih k' (n + 2) (w ++ [c]) (if alsoSave then s ++ [c] else s) hstop
          simp only [List.length_append, List.length_cons, List.length_nil] at this ⊢
          omega

/-! ## Lemmas about the Kokoro retry loop (C8) -/

theorem foldl_append_acc {α β : Type} (g : α → List β) :
    ∀ (l : List α) (init : List β),
      l.foldl (fun acc f => acc ++ g f) init = init ++ (l.map g).flatten := by
  intro l
  induction l with
  | nil => intro init; simp
  | cons x xs ih =>
    intro init
    rw [List.foldl_cons, ih]
    simp

theorem kokoroCollect_eq {A : Type} (pipe : List Char → List A × Bool) :
    ∀ (units : List (List Char)) (segs : List A),
      kokoroCollect pipe segs units =
        segs ++ (units.map (unitAudio pipe)).flatten := by
  intro units
  induction units with
  | nil => intro segs; simp [kokoroCollect]
  | cons s rest ih =>
    intro segs
    rw [kokoroCollect]
    cases hp : pipe s with
    | mk a ok =>
      cases ok with
      | true =>
        show kokoroCollect pipe (segs ++ a) rest =
          segs ++ (List.map (unitAudio pipe) (s :: rest)).flatten
        rw [ih]
        simp [unitAudio, hp]
      | false =>
        show kokoroCollect pipe
            (List.foldl (fun acc f => acc ++ (pipe f).1) (segs ++ a)
              (splitClauses s)) rest =
          segs ++ (List.map (unitAudio pipe) (s :: rest)).flatten
        rw [foldl_append_acc (fun f => (pipe f).1), ih]
        simp [unitAudio, hp]

/-! ## Claim theorems -/

/-- C1: every unit returned by `TTSController.chunk_text` has length at
most `MAX_CHUNK_SIZE` (300), except a unit consisting of a single word
longer than 300 characters, which is a whitespace-free word of the
input returned whole (never truncated mid-word). -/
theorem chunk_text_length_bound (t c : List Char) (hc : c ∈ chunk_text t) :
    c.length ≤ MAX_CHUNK_SIZE ∨
      (MAX_CHUNK_SIZE < c.length ∧ (∀ ch ∈ c, isSpc ch = false) ∧
        c ∈ pyWords t) := by
  by_cases hle : c.length ≤ MAX_CHUNK_SIZE
  · exact Or.inl hle
  · push_neg at hle
    have hbound : c.length ≤ MAX_CHUNK_SIZE ∨ ∀ ch ∈ c, isSpc ch = false := by
      rw [chunk_text] at hc
      by_cases h : t.length ≤ MAX_CHUNK_SIZE
      · rw [if_pos h] at hc
        rcases List.mem_singleton.mp hc with rfl
        exact Or.inl h
      · rw [if_neg h] at hc
        exact packSentences_bound _ [] (by simp [MAX_CHUNK_SIZE]) c hc
    rcases hbound with h1 | h1
    · omega
    · refine Or.inr ⟨hle, h1, ?_⟩
      have hcne : c ≠ [] := by
        intro hnil
        rw [hnil] at hle
        simp at hle
      have hw : pyWords c = [c] := pyWords_single hcne h1
      have hmem : c ∈ ((chunk_text t).map pyWords).flatten :=
        List.mem_flatten.mpr ⟨pyWords c, List.mem_map_of_mem _ hc, by rw [hw]; simp⟩
      rw [chunk_text_flatten_words t] at hmem
      exact hmem

/-- Witness for C1 at a concrete input. -/
theorem chunk_text_length_bound_witness :
    (['a'] ∈ chunk_text ['a']) ∧
      (['a'].length ≤ MAX_CHUNK_SIZE ∨
        (MAX_CHUNK_SIZE < ['a'].length ∧ (∀ ch ∈ ['a'], isSpc ch = false) ∧
          ['a'] ∈ pyWords ['a'])) :=
  ⟨by decide, chunk_text_length_bound ['a'] ['a'] (by decide)⟩

/-- C2: the concatenated word sequences of the units returned by
`chunk_text` are exactly the word sequence of the input — no word is
dropped, duplicated or reordered (stated as: flattening the per-unit
`str.split()` word lists yields the input's word list). -/
theorem chunk_text_word_coverage (t : List Char) :
    ((chunk_text t).map pyWords).flatten = pyWords t :=
  chunk_text_flatten_words t

/-- C3 counterexample: the claim "every unit is a non-empty string (in
particular, chunking an empty or whitespace-only input never yields an
empty unit)" is false — `chunk_text ""` returns `[""]`, whose only unit
is empty (line 142-143 returns `[text]` unconditionally for short
inputs). -/
theorem chunk_text_nonempty_refuted :
    ¬ (∀ t : List Char, ∀ c ∈ chunk_text t, c ≠ []) := by
  intro h
  exact h [] [] (by decide) rfl

/-- C3 (amended): for every **non-empty** input, every unit returned by
`chunk_text` is non-empty; the empty input is returned as the single
empty unit `[""]`. -/
theorem chunk_text_units_nonempty (t : List Char) (ht : t ≠ []) :
    ∀ c ∈ chunk_text t, c ≠ [] := by
  intro c hc
  rw [chunk_text] at hc
  by_cases h : t.length ≤ MAX_CHUNK_SIZE
  · rw [if_pos h] at hc
    rcases List.mem_singleton.mp hc with rfl
    exact ht
  · rw [if_neg h] at hc
    exact packSentences_ne_nil _ [] (Or.inr rfl) c hc

/-- Witness for the amended C3 at a concrete input. -/
theorem chunk_text_units_nonempty_witness :
    (['a'] ≠ ([] : List Char)) ∧ ∀ c ∈ chunk_text ['a'], c ≠ [] :=
  ⟨by decide, chunk_text_units_nonempty ['a'] (by decide)⟩

/-- C4: each merge step joins the rstripped accumulated text and the
lstripped new fragment with a single space; over a whole accumulation,
`also_save` is the OR of all fragments' flags and `file_format` is the
last fragment's; and the spec's example `"Hello"`, `"world."` merges to
`"Hello world."`. -/
theorem accumulation_merge_spec (f0 : Fragment) (fs : List Fragment) (g : Fragment) :
    (accumulate f0 (fs ++ [g])).text =
      pyRstrip (accumulate f0 fs).text ++ ' ' :: pyLstrip g.text ∧
    (accumulate f0 fs).also_save = (f0.also_save || fs.any Fragment.also_save) ∧
    (accumulate f0 fs).file_format =
      ((fs.getLast?).map Fragment.file_format).getD f0.file_format ∧
    (accumulate ⟨"Hello".toList, false, "wav".toList⟩
        [⟨"world.".toList, false, "wav".toList⟩]).text = "Hello world.".toList := by
  refine ⟨?_, ?_, ?_, by decide⟩
  · rw [accumulate, List.foldl_append]
    rfl
  · exact foldl_merge_also_save fs (startPending f0)
  · exact foldl_merge_file_format fs (startPending f0)

/-- C5: the accumulation deadline is anchored to the first fragment's
arrival `t0` — synthesis starts no later than `t0 +
ACCUMULATION_TIMEOUT` however many fragments are merged (merging never
extends or resets the deadline) — and when no flush arrives, the final
utterance contains exactly the fragments that arrived by the deadline:
fragments already enqueued at the deadline are drained non-blockingly
and appended before synthesis starts. -/
theorem accumulation_deadline_anchored (f0 : Fragment) (t0 : ℚ)
    (items : List QItem)
    (hsort : items.Pairwise (fun a b => a.arrival ≤ b.arrival))
    (harr : ∀ it ∈ items, t0 ≤ it.arrival)
    (hnf : ∀ it ∈ items, it.isFlush = false) :
    (accumulatePhase f0 t0 items).1 ≤ t0 + ACCUMULATION_TIMEOUT ∧
    (accumulatePhase f0 t0 items).2 =
      (fragsUpTo (t0 + ACCUMULATION_TIMEOUT) items).foldl mergeFragment
        (startPending f0) := by
  have ht : t0 ≤ t0 + ACCUMULATION_TIMEOUT := by
    rw [ACCUMULATION_TIMEOUT]
    linarith
  constructor
  · have h1 : (accumulatePhase f0 t0 items).1 =
        (accumWait (t0 + ACCUMULATION_TIMEOUT) t0 (startPending f0) items).1 := rfl
    rw [h1]
    exact accumWait_exit_le _ items t0 _ ht
  · have h2 : (accumulatePhase f0 t0 items).2 =
        accumResult (t0 + ACCUMULATION_TIMEOUT) t0 (startPending f0) items := rfl
    rw [h2]
    exact accumWait_drain _ items t0 _ hsort harr ht hnf

/-- Witness for C5 at a concrete timed trace: fragments arriving at
times 1 and 6 after a first fragment at time 0 — only the one inside
the 5-second window is merged, and synthesis starts by time 5. -/
theorem accumulation_deadline_anchored_witness :
    (List.Pairwise (fun a b => QItem.arrival a ≤ QItem.arrival b)
        [QItem.frag ⟨"a".toList, false, "wav".toList⟩ 1,
         QItem.frag ⟨"b".toList, true, "ogg".toList⟩ 6] ∧
      (∀ it ∈ [QItem.frag ⟨"a".toList, false, "wav".toList⟩ 1,
         QItem.frag ⟨"b".toList, true, "ogg".toList⟩ 6], (0 : ℚ) ≤ it.arrival) ∧
      (∀ it ∈ [QItem.frag ⟨"a".toList, false, "wav".toList⟩ 1,
         QItem.frag ⟨"b".toList, true, "ogg".toList⟩ 6], it.isFlush = false)) ∧
    ((accumulatePhase ⟨"Hi".toList, false, "wav".toList⟩ 0
        [QItem.frag ⟨"a".toList, false, "wav".toList⟩ 1,
         QItem.frag ⟨"b".toList, true, "ogg".toList⟩ 6]).1 ≤
          0 + ACCUMULATION_TIMEOUT ∧
      (accumulatePhase ⟨"Hi".toList, false, "wav".toList⟩ 0
        [QItem.frag ⟨"a".toList, false, "wav".toList⟩ 1,
         QItem.frag ⟨"b".toList, true, "ogg".toList⟩ 6]).2 =
        (fragsUpTo (0 + ACCUMULATION_TIMEOUT)
          [QItem.frag ⟨"a".toList, false, "wav".toList⟩ 1,
           QItem.frag ⟨"b".toList, true, "ogg".toList⟩ 6]).foldl mergeFragment
          (startPending ⟨"Hi".toList, false, "wav".toList⟩)) :=
  ⟨⟨by decide, by decide, by decide⟩,
    accumulation_deadline_anchored ⟨"Hi".toList, false, "wav".toList⟩ 0 _
      (by decide) (by decide) (by decide)⟩

/-- C6 counterexample: the claim "if stop is requested mid-playback,
the interrupted utterance's file save is skipped and `on_complete` is
never invoked" is false — with `also_save` set and the stop signal
raised after the first of two chunks, the pass is interrupted (only
chunk one is written) yet the save block still runs and `on_complete`
still fires, because lines 469-478 are not guarded by a stop check. -/
theorem playback_stop_save_refuted :
    (playbackRun true (fun n => decide (2 ≤ n)) ([10, 20] : List ℕ)).written = [10] ∧
    (playbackRun true (fun n => decide (2 ≤ n)) ([10, 20] : List ℕ)).written ≠ [10, 20] ∧
    (playbackRun true (fun n => decide (2 ≤ n)) ([10, 20] : List ℕ)).saved = true ∧
    (playbackRun true (fun n => decide (2 ≤ n)) ([10, 20] : List ℕ)).completed = true := by
  refine ⟨rfl, by decide, rfl, rfl⟩

/-- C6 (amended): when stop is requested mid-playback the worker does
stop pulling further chunks (the written chunks are a prefix of the
chunk sequence, and nothing is written past the first observed stop
check); however the file save is **not** skipped — the save block runs
and `on_complete` fires whenever `also_save` was set and at least one
chunk was already collected, interrupted or not. -/
theorem playback_stop_behavior {A : Type} (alsoSave : Bool) (stop : Nat → Bool)
    (chunks : List A) :
    (∃ k, (playbackRun alsoSave stop chunks).written = chunks.take k) ∧
    (playbackRun alsoSave stop chunks).saved =
      (alsoSave && !(playbackRun alsoSave stop chunks).written.isEmpty) ∧
    (playbackRun alsoSave stop chunks).completed =
      (playbackRun alsoSave stop chunks).saved ∧
    (∀ k, stop (2 * k) = true →
      (playbackRun alsoSave stop chunks).written.length ≤ k) := by
  refine ⟨?_, ?_, ?_, ?_⟩
  · simpa using playLoop_written_take alsoSave stop chunks 0 [] []
  · cases alsoSave with
    | false => exact (playLoop_save_fires false stop chunks 0 []).1
    | true => exact (playLoop_save_fires true stop chunks 0 []).1
  · cases alsoSave with
    | false => exact (playLoop_save_fires false stop chunks 0 []).2
    | true => exact (playLoop_save_fires true stop chunks 0 []).2
  · intro k hk
    simpa using playLoop_stop_not_written alsoSave stop chunks k 0 [] []
      (by simpa using hk)

/-- Witness for the amended C6 at a concrete run: the stop signal seen
at check 2 bounds the written chunks to the first one. -/
theorem playback_stop_behavior_witness :
    ((fun n => decide (2 ≤ n)) (2 * 1) = true) ∧
    (playbackRun true (fun n => decide (2 ≤ n)) ([10, 20] : List ℕ)).written.length ≤ 1 :=
  ⟨by decide,
    (playback_stop_behavior true (fun n => decide (2 ≤ n)) [10, 20]).2.2.2 1 (by decide)⟩

/-- C7 counterexample: the claim "`set_reference_voice` raises a
file-not-found error **iff** the path is non-null and does not exist"
is false — the empty-string path is non-null and does not exist on
disk, yet no error is raised, because the guard on line 97 tests
Python truthiness (`if audio_path and ...`) and `""` is falsy. -/
theorem set_reference_voice_iff_refuted :
    ¬ (∀ (pathExists : List Char → Bool) (st p : Option (List Char)),
        (set_reference_voice pathExists st p).raised = true ↔
          (p ≠ none ∧ pathExists (p.getD []) = false)) := by
  intro h
  have h1 := (h (fun _ => false) none (some [])).mpr ⟨by simp, rfl⟩
  simp [set_reference_voice, pyTruthyOpt] at h1

/-- C7 (amended): `set_reference_voice` raises iff the path is
non-null, **non-empty**, and does not exist on disk; on an error the
stored `reference_voice_path` is left unchanged; a null path (and also
an empty one) always succeeds, a null path clearing the reference. -/
theorem set_reference_voice_spec (pathExists : List Char → Bool)
    (st p : Option (List Char)) :
    ((set_reference_voice pathExists st p).raised = true ↔
      ∃ s, p = some s ∧ s ≠ [] ∧ pathExists s = false) ∧
    ((set_reference_voice pathExists st p).raised = true →
      (set_reference_voice pathExists st p).reference_voice_path = st) ∧
    ((set_reference_voice pathExists st p).raised = false →
      (set_reference_voice pathExists st p).reference_voice_path = p) ∧
    ((set_reference_voice pathExists st none).raised = false ∧
      (set_reference_voice pathExists st none).reference_voice_path = none) := by
  cases p with
  | none => simp [set_reference_voice, pyTruthyOpt]
  | some s =>
    by_cases hs : s = []
    · subst hs
      simp [set_reference_voice, pyTruthyOpt]
    · by_cases he : pathExists s = true
      · refine ⟨?_, ?_, ?_, ?_⟩
        · simp [set_reference_voice, pyTruthyOpt, hs, he]
        · simp [set_reference_voice, pyTruthyOpt, hs, he]
        · simp [set_reference_voice, pyTruthyOpt, hs, he]
        · simp [set_reference_voice, pyTruthyOpt]
      · replace he : pathExists s = false := by simpa using he
        refine ⟨?_, ?_, ?_, ?_⟩
        · simp [set_reference_voice, pyTruthyOpt, hs, he]
        · simp [set_reference_voice, pyTruthyOpt, hs, he]
        · simp [set_reference_voice, pyTruthyOpt, hs, he]
        · simp [set_reference_voice, pyTruthyOpt]

/-- Witness for the amended C7 at a concrete input: a non-empty
missing path raises, and the stored reference is left unchanged. -/
theorem set_reference_voice_spec_witness :
    ((set_reference_voice (fun _ => false) none (some ['a'])).raised = true) ∧
    (set_reference_voice (fun _ => false) none (some ['a'])).reference_voice_path
      = none :=
  ⟨by decide,
    (set_reference_voice_spec (fun _ => false) none (some ['a'])).2.1 (by decide)⟩

/-- C8: in the lightweight (Kokoro) provider, each sentence-level unit
whose pipeline call fails is retried exactly once, split at clause
boundaries; fragments that still fail are skipped while all other
fragments and units still contribute their audio — so the result
decomposes per unit (`unitAudio`), and whenever any unit contributes
audio the synthesis succeeds rather than aborting. -/
theorem kokoro_fragment_isolation {A : Type} (pipe : List Char → List A × Bool)
    (t : List Char) :
    kokoroSynthesize pipe t =
      (if ((kokoroSentences t).map (unitAudio pipe)).flatten.isEmpty then
        Except.error ()
       else Except.ok ((kokoroSentences t).map (unitAudio pipe)).flatten) ∧
    (∀ s ∈ kokoroSentences t, (unitAudio pipe s).isEmpty = false →
      kokoroSynthesize pipe t =
        Except.ok ((kokoroSentences t).map (unitAudio pipe)).flatten) := by
  have hcol : kokoroCollect pipe [] (kokoroSentences t) =
      ((kokoroSentences t).map (unitAudio pipe)).flatten := by
    rw [kokoroCollect_eq]
    rfl
  constructor
  · rw [kokoroSynthesize, hcol]
  · intro s hs hne
    rw [kokoroSynthesize, hcol]
    have hu : unitAudio pipe s ≠ [] := by
      intro hnil
      rw [hnil] at hne
      simp at hne
    obtain ⟨c, hc⟩ := List.exists_mem_of_ne_nil _ hu
    have hcf : c ∈ ((kokoroSentences t).map (unitAudio pipe)).flatten :=
      List.mem_flatten.mpr ⟨unitAudio pipe s, List.mem_map_of_mem _ hs, hc⟩
    have hflne : ((kokoroSentences t).map (unitAudio pipe)).flatten ≠ [] :=
      List.ne_nil_of_mem hcf
    rw [if_neg (by simpa using hflne)]

/-- Witness for C8 at a concrete pipeline: the middle unit fails and is
retried in clause fragments of which one still fails and is skipped;
the utterance still succeeds with the audio of the good unit and the
good fragment. -/
theorem kokoro_fragment_isolation_witness :
    ("Paris.".toList ∈ kokoroSentences "Paris. One, two.".toList ∧
      (unitAudio
        (fun s => if s = "Paris.".toList then ([1], true)
          else if s = "two.".toList then ([2], true) else ([], false))
        "Paris.".toList).isEmpty = false) ∧
    kokoroSynthesize
        (fun s => if s = "Paris.".toList then (([1] : List ℕ), true)
          else if s = "two.".toList then ([2], true) else ([], false))
        "Paris. One, two.".toList =
      Except.ok ((kokoroSentences "Paris. One, two.".toList).map
        (unitAudio (fun s => if s = "Paris.".toList then ([1], true)
          else if s = "two.".toList then ([2], true) else ([], false)))).flatten :=
  ⟨⟨by simp [kokoroSentences, splitAfterPunct, pyStrip, pyLstrip, pyRstrip,
      isSpc, isPunct], by decide⟩,
    (kokoro_fragment_isolation
      (fun s => if s = "Paris.".toList then (([1] : List ℕ), true)
        else if s = "two.".toList then ([2], true) else ([], false))
      "Paris. One, two.".toList).2 "Paris.".toList
      (by simp [kokoroSentences, splitAfterPunct, pyStrip, pyLstrip, pyRstrip,
        isSpc, isPunct]) (by decide)⟩

/-- C9: on an accelerated-device failure during Chatterbox model
initialisation, the provider retries exactly once on CUDA with cuDNN
disabled, then falls back to a CPU load; it raises only if all three
attempts fail (each fallback is recoverable); and once initialisation
has succeeded — in particular after falling back to CPU — subsequent
calls leave the state, including the device, unchanged (no per-call
switching back). -/
theorem chatterbox_device_fallback (load : TorchDevice → Bool → Bool)
    (st : ChatterboxState) (hdev : st.device = .cuda)
    (hinit : st.initialized = false) :
    (load .cuda true = false → load .cuda false = true →
      ensure_initialized load st = some ⟨.cuda, false, true⟩) ∧
    (load .cuda true = false → load .cuda false = false → load .cpu true = true →
      ensure_initialized load st = some ⟨.cpu, true, true⟩) ∧
    (ensure_initialized load st = none →
      load .cuda true = false ∧ load .cuda false = false ∧
        load .cpu true = false) ∧
    (∀ (st' : ChatterboxState) (load2 : TorchDevice → Bool → Bool),
      ensure_initialized load st = some st' →
        ensure_initialized load2 st' = some st') := by
  refine ⟨?_, ?_, ?_, ?_⟩
  · intro h1 h2
    simp [ensure_initialized, hinit, hdev, h1, h2]
  · intro h1 h2 h3
    simp [ensure_initialized, hinit, hdev, h1, h2, h3]
  · intro h
    by_cases l1 : load TorchDevice.cuda true = true
    · simp [ensure_initialized, hinit, hdev, l1] at h
    · replace l1 : load TorchDevice.cuda true = false := by simpa using l1
      by_cases l2 : load TorchDevice.cuda false = true
      · simp [ensure_initialized, hinit, hdev, l1, l2] at h
      · replace l2 : load TorchDevice.cuda false = false := by simpa using l2
        by_cases l3 : load TorchDevice.cpu true = true
        · simp [ensure_initialized, hinit, hdev, l1, l2, l3] at h
        · replace l3 : load TorchDevice.cpu true = false := by simpa using l3
          exact ⟨l1, l2, l3⟩
  · intro st' load2 h
    by_cases l1 : load TorchDevice.cuda true = true
    · simp [ensure_initialized, hinit, hdev, l1] at h
      rw [← h]
      simp [ensure_initialized]
    · replace l1 : load TorchDevice.cuda true = false := by simpa using l1
      by_cases l2 : load TorchDevice.cuda false = true
      · simp [ensure_initialized, hinit, hdev, l1, l2] at h
        rw [← h]
        simp [ensure_initialized]
      · replace l2 : load TorchDevice.cuda false = false := by simpa using l2
        by_cases l3 : load TorchDevice.cpu true = true
        · simp [ensure_initialized, hinit, hdev, l1, l2, l3] at h
          rw [← h]
          simp [ensure_initialized]
        · replace l3 : load TorchDevice.cpu true = false := by simpa using l3
          simp [ensure_initialized, hinit, hdev, l1, l2, l3] at h

/-- Witness for C9 at a concrete loader: both CUDA attempts fail and
the CPU load succeeds, so the session ends up initialised on CPU and a
later call with any loader leaves it there. -/
theorem chatterbox_device_fallback_witness :
    ((⟨TorchDevice.cuda, true, false⟩ : ChatterboxState).device =
        TorchDevice.cuda ∧
      (⟨TorchDevice.cuda, true, false⟩ : ChatterboxState).initialized = false) ∧
    ((fun d (_ : Bool) => decide (d = TorchDevice.cpu)) TorchDevice.cuda true
        = false →
      (fun d (_ : Bool) => decide (d = TorchDevice.cpu)) TorchDevice.cuda false
        = false →
      (fun d (_ : Bool) => decide (d = TorchDevice.cpu)) TorchDevice.cpu true
        = true →
      ensure_initialized (fun d (_ : Bool) => decide (d = TorchDevice.cpu))
          ⟨TorchDevice.cuda, true, false⟩ = some ⟨TorchDevice.cpu, true, true⟩) :=
  ⟨⟨rfl, rfl⟩,
    (chatterbox_device_fallback (fun d (_ : Bool) => decide (d = TorchDevice.cpu))
      ⟨TorchDevice.cuda, true, false⟩ rfl rfl).2.1⟩

/-- C10: `create_provider` maps every backend identifier other than
`"qwen3"` and `"kokoro"` — including unknown or misspelled ones — to a
`ChatterboxProvider` with the given device and model type; the
dispatch is a total `if/elif/else`, so no error is ever raised for an
unrecognised backend id. -/
theorem create_provider_fallback (backend device mt ms sp kv : List Char)
    (h1 : backend ≠ "qwen3".toList) (h2 : backend ≠ "kokoro".toList) :
    create_provider backend device mt ms sp kv = .chatterbox device mt := by
  rw [create_provider, if_neg h1, if_neg h2]

/-- Witness for C10 at a concrete unrecognised backend id. -/
theorem create_provider_fallback_witness :
    ("bogus".toList ≠ "qwen3".toList ∧ "bogus".toList ≠ "kokoro".toList) ∧
    create_provider "bogus".toList "auto".toList "standard".toList
        "1.7B".toList "Ryan".toList "af_heart".toList =
      .chatterbox "auto".toList "standard".toList :=
  ⟨⟨by decide, by decide⟩,
    create_provider_fallback "bogus".toList "auto".toList "standard".toList
      "1.7B".toList "Ryan".toList "af_heart".toList (by decide) (by decide)⟩

end Whispering
